import Mathlib

/-!
Shallow embedding of the `unixstring` crate (an FFI-friendly nul-terminated
byte string) and proofs about its specification.

Bytes are modelled as natural numbers, byte buffers (`Vec<u8>`, `&[u8]`) as
`List Nat`.  Fallible operations return `Except Error _`; the in-place
mutation `push_bytes` is modelled by explicit state passing, returning the
result together with the final state of the receiver.
-/

/-- From src/memchr.rs: `memchr(needle, haystack)` — index of the first
occurrence of `needle` in `haystack`, or `none` if absent (the semantics of
`libc::memchr`, which the Rust function wraps). -/
def memchr (needle : Nat) : List Nat → Option Nat
  | [] => none
  | b :: bs => if b = needle then some 0 else (memchr needle bs).map (· + 1)

/-- From src/memchr.rs: `find_nul_byte(bytes) = memchr(0, bytes)`. -/
def find_nul_byte (bytes : List Nat) : Option Nat :=
  memchr 0 bytes

/-- The crate's error type.  src/error.rs as shipped declares exactly the
variants `InteriorNulByte`, `IntoUtf8`, `FromUtf8` and `Io` (see
`errorRsDeclaredVariants`), while `UnixString::validate` in
src/unix_string.rs additionally returns `Error::MissingNulTerminator`.  The
embedding includes that referenced variant so `validate` can be expressed at
all; the mismatch itself is recorded by `errorRsDeclaredVariants`. -/
inductive Error where
  | interiorNulByte
  | intoUtf8
  | fromUtf8
  | io
  | missingNulTerminator
deriving DecidableEq

/-- The variant names literally declared by `enum Error` in src/error.rs
(lines 5–11). -/
def errorRsDeclaredVariants : List String :=
  ["InteriorNulByte", "IntoUtf8", "FromUtf8", "Io"]

/-- The `Error` variant names referenced by the body of
`UnixString::validate` in src/unix_string.rs (lines 55–62). -/
def validateReferencedVariants : List String :=
  ["InteriorNulByte", "MissingNulTerminator"]

/-- From src/unix_string.rs: `pub struct UnixString { inner: Vec<u8> }`. -/
structure UnixString where
  inner : List Nat
deriving DecidableEq

/-- Invariants I1–I3 of the spec's data model: the inner buffer is
non-empty, its byte at the final index is `0x00`, and no byte at any
earlier index is `0x00`. -/
def NulOnlyAtEnd (l : List Nat) : Prop :=
  l ≠ [] ∧ l.getLast? = some 0 ∧ ∀ i, i + 1 < l.length → l[i]? ≠ some 0

instance decNulOnlyAtEnd (l : List Nat) : Decidable (NulOnlyAtEnd l) :=
  decidable_of_iff
    (l ≠ [] ∧ l.getLast? = some 0 ∧ ∀ i, i < l.length → i + 1 < l.length → l[i]? ≠ some 0)
    (by
      constructor
      · rintro ⟨h1, h2, h3⟩
        exact ⟨h1, h2, fun i hi => h3 i (by omega) hi⟩
      · rintro ⟨h1, h2, h3⟩
        exact ⟨h1, h2, fun i _ hi => h3 i hi⟩)

/-- A byte slice with no nul byte at all. -/
def NoNul (l : List Nat) : Prop :=
  ∀ b ∈ l, b ≠ 0

instance decNoNul : DecidablePred NoNul := fun l =>
  decidable_of_iff (∀ b ∈ l, b ≠ 0) Iff.rfl

namespace UnixString

/-- From src/unix_string.rs: `Default for UnixString` — `vec![0]`. -/
def default : UnixString :=
  ⟨[0]⟩

/-- From src/unix_string.rs: `UnixString::new()` = `Self::default()`. -/
def new : UnixString :=
  UnixString.default

/-- From src/unix_string.rs: `UnixString::with_capacity(capacity)` — the
inner vector is allocated with room for `capacity + 1` bytes and holds the
single byte `0`; capacity is an allocation detail with no effect on the
contents, so the model keeps only the contents. -/
def with_capacity (_capacity : Nat) : UnixString :=
  ⟨[0]⟩

/-- From src/unix_string.rs: `UnixString::validate`. -/
def validate (s : UnixString) : Except Error Unit :=
  match find_nul_byte s.inner with
  | some nul_pos =>
    if nul_pos + 1 = s.inner.length then Except.ok () else Except.error Error.interiorNulByte
  | none => Except.error Error.missingNulTerminator

/-- From src/unix_string.rs: `UnixString::extend_slice` — removes the last
byte of `inner` (the nul terminator; `Vec::remove(len - 1)`, which requires
a non-empty buffer) and then extends `inner` with `slice`. -/
def extend_slice (s : UnixString) (slice : List Nat) : UnixString :=
  ⟨s.inner.dropLast ++ slice⟩

/-- From src/unix_string.rs: `UnixString::push_bytes`.  The Rust method
mutates `self` and returns `Result<()>`; the model returns the result paired
with the final state of the receiver.  Note that the scan of `bytes` happens
before any mutation, and the `Err` arm does not touch `inner`. -/
def push_bytes (s : UnixString) (bytes : List Nat) : Except Error Unit × UnixString :=
  match find_nul_byte bytes with
  | some nul_pos =>
    if nul_pos + 1 = bytes.length then
      (Except.ok (), s.extend_slice bytes)
    else
      (Except.error Error.interiorNulByte, s)
  | none =>
    (Except.ok (), ⟨(s.extend_slice bytes).inner ++ [0]⟩)

/-- From src/unix_string.rs: `UnixString::from_bytes`. -/
def from_bytes (bytes : List Nat) : Except Error UnixString :=
  match find_nul_byte bytes with
  | some nul_pos =>
    if nul_pos + 1 = bytes.length then Except.ok ⟨bytes⟩ else Except.error Error.interiorNulByte
  | none => Except.ok ⟨bytes ++ [0]⟩

/-- From src/unix_string.rs: `UnixString::inner_without_nul_terminator` —
`&self.inner[0 .. self.inner.len() - 1]` (requires a non-empty buffer). -/
def inner_without_nul_terminator (s : UnixString) : List Nat :=
  s.inner.dropLast

/-- From src/unix_string.rs: `UnixString::as_bytes` — the logical byte view. -/
def as_bytes (s : UnixString) : List Nat :=
  s.inner_without_nul_terminator

/-- From src/unix_string.rs: `UnixString::as_bytes_with_nul` — the physical
byte view. -/
def as_bytes_with_nul (s : UnixString) : List Nat :=
  s.inner

/-- From src/unix_string.rs: `From<CString> for UnixString` — takes the
`CString`'s bytes including its nul terminator as the inner buffer.  The
`CString` invariant (no interior nul, exactly one trailing nul) is carried
as a hypothesis where the conversion is used. -/
def from_cstring (bytes_with_nul_terminator : List Nat) : UnixString :=
  ⟨bytes_with_nul_terminator⟩

/-- From src/try_from.rs: `TryFrom<Vec<u8>>` delegates to `from_bytes`. -/
def try_from_vec (bytes : List Nat) : Except Error UnixString :=
  from_bytes bytes

/-- From src/try_from.rs: `TryFrom<String>` — `from_bytes(value.into_bytes())`,
where `String::into_bytes` yields the string's UTF-8 bytes. -/
def try_from_string (utf8Bytes : List Nat) : Except Error UnixString :=
  from_bytes utf8Bytes

/-- From src/try_from.rs: `TryFrom<OsString>` — `from_bytes(value.into_vec())`,
where `OsStringExt::into_vec` yields the OS string's bytes. -/
def try_from_os_string (osBytes : List Nat) : Except Error UnixString :=
  from_bytes osBytes

/-- From src/try_from.rs: `TryFrom<PathBuf>` — `value.into_os_string().try_into()`,
i.e. the `OsString` conversion on the path's bytes. -/
def try_from_pathbuf (pathBytes : List Nat) : Except Error UnixString :=
  try_from_os_string pathBytes

/-- `slice.get(0..n)` on a Rust slice: `some` of the first `n` elements when
`n` is within bounds, `none` otherwise. -/
def sliceGetTo (l : List Nat) (n : Nat) : Option (List Nat) :=
  if n ≤ l.length then some (l.take n) else none

/-- From src/unix_string.rs: `UnixString::starts_with` —
`self.as_bytes().get(0..rhs.len())` compared against `rhs`. -/
def starts_with (s : UnixString) (rhs : List Nat) : Bool :=
  match sliceGetTo s.as_bytes rhs.length with
  | some subslice => subslice == rhs
  | none => false

/-- From src/unix_string.rs: `UnixString::len` —
`self.inner.len().wrapping_sub(1)`, a wrapping subtraction on a 64-bit
`usize`. -/
def len (s : UnixString) : Nat :=
  (s.inner.length + (2 ^ 64 - 1)) % 2 ^ 64

/-- From src/unix_string.rs: `UnixString::len_with_nul` — `self.inner.len()`. -/
def len_with_nul (s : UnixString) : Nat :=
  s.inner.length

end UnixString

/-- Modelled from the Rust standard library: `CStr::from_bytes_with_nul`
succeeds (returning the given bytes as the `CStr`'s bytes-with-nul) exactly
when the slice has a nul byte at its last index and no interior nul byte;
otherwise it errors.  Used by `UnixString::as_c_str`. -/
def cstrFromBytesWithNul (bytes : List Nat) : Option (List Nat) :=
  match find_nul_byte bytes with
  | some nul_pos => if nul_pos + 1 = bytes.length then some bytes else none
  | none => none

/-- From src/unix_string.rs: `UnixString::as_c_str` —
`CStr::from_bytes_with_nul(&self.inner).unwrap()`.  The model keeps the
`Option` so the `unwrap` (`none` = panic) can be reasoned about. -/
def UnixString.as_c_str (s : UnixString) : Option (List Nat) :=
  cstrFromBytesWithNul s.inner

/-- The ordering derived for `UnixString` in src/unix_string.rs
(`derive(PartialOrd, Ord)` on the single field `inner`): lexicographic
comparison of the inner byte vectors, the semantics of `Ord` on `Vec<u8>`. -/
def listCompare : List Nat → List Nat → Ordering
  | [], [] => Ordering.eq
  | [], _ :: _ => Ordering.lt
  | _ :: _, [] => Ordering.gt
  | a :: as, b :: bs =>
    if a < b then Ordering.lt else if b < a then Ordering.gt else listCompare as bs

/-- A component of a POSIX path, as in the Rust standard library's
`std::path::Component` (restricted to the variants reachable on POSIX
without prefixes). -/
inductive PathComponent where
  | rootDir
  | curDir
  | parentDir
  | normal (s : List Nat)
deriving DecidableEq

/-- Modelled from the Rust standard library: the component sequence of a
POSIX path, as produced by `Path::components` — a leading `/` yields
`RootDir`; the byte string is split on `/`; empty segments are dropped;
`.` segments are dropped except for a leading `.` of a relative path
(kept as `CurDir`); `..` becomes `ParentDir`; everything else is `Normal`.
`Path`'s `PartialEq` compares these component sequences. -/
def pathComponents (bytes : List Nat) : List PathComponent :=
  let segs := (bytes.splitOn 47).filter fun s => decide (s ≠ []) && decide (s ≠ [46])
  let body := segs.map fun s =>
    if s = [46, 46] then PathComponent.parentDir else PathComponent.normal s
  if bytes.head? = some 47 then
    PathComponent.rootDir :: body
  else if bytes.head? = some 46 && (bytes[1]? = none || bytes[1]? = some 47) then
    PathComponent.curDir :: body
  else
    body

/-- From src/partial_eq.rs: `PartialEq<&str> for UnixString` —
`self.as_bytes() == other.as_bytes()`, where `other` is the `&str` whose
UTF-8 bytes are given. -/
def UnixString.eq_str (s : UnixString) (strBytes : List Nat) : Bool :=
  s.as_bytes == strBytes

/-- From src/partial_eq.rs: `PartialEq<&OsStr> for UnixString` —
`self.as_os_str() == *other`; `as_os_str` wraps the logical bytes and
`OsStr` equality on POSIX compares the underlying bytes. -/
def UnixString.eq_os_str (s : UnixString) (osStrBytes : List Nat) : Bool :=
  s.as_bytes == osStrBytes

/-- From src/partial_eq.rs: `PartialEq<&CStr> for UnixString` —
`self.as_c_str() == *other`; `CStr` equality compares the bytes without
the nul terminator, so the comparison is against the other `CStr`'s
`to_bytes()`. -/
def UnixString.eq_c_str (s : UnixString) (cstrBytes : List Nat) : Bool :=
  s.inner.dropLast == cstrBytes

/-- From src/partial_eq.rs: `PartialEq<&Path> for UnixString` —
`self.as_path() == *other`; `as_path` wraps the logical bytes and `Path`
equality in the Rust standard library compares component sequences, not
raw bytes. -/
def UnixString.eq_path (s : UnixString) (pathBytes : List Nat) : Bool :=
  pathComponents s.as_bytes == pathComponents pathBytes

/-- The buffers reachable through the safe constructors and growth
operations of the crate: `new`, `with_capacity`, `from_bytes` (to which the
`TryFrom` conversions from `String`, `OsString`, `PathBuf` and `Vec<u8>`
all reduce, see src/try_from.rs), `From<CString>` (whose input satisfies
the `CString` invariant), and successful `push_bytes` (to which `push`
reduces). -/
inductive Reachable : UnixString → Prop where
  | new : Reachable UnixString.new
  | with_capacity (n : Nat) : Reachable (UnixString.with_capacity n)
  | from_bytes (bytes : List Nat) (s : UnixString)
      (h : UnixString.from_bytes bytes = Except.ok s) : Reachable s
  | try_from_string (bytes : List Nat) (s : UnixString)
      (h : UnixString.try_from_string bytes = Except.ok s) : Reachable s
  | try_from_os_string (bytes : List Nat) (s : UnixString)
      (h : UnixString.try_from_os_string bytes = Except.ok s) : Reachable s
  | try_from_pathbuf (bytes : List Nat) (s : UnixString)
      (h : UnixString.try_from_pathbuf bytes = Except.ok s) : Reachable s
  | try_from_vec (bytes : List Nat) (s : UnixString)
      (h : UnixString.try_from_vec bytes = Except.ok s) : Reachable s
  | from_cstring (bytes : List Nat) (h : NulOnlyAtEnd bytes) :
      Reachable (UnixString.from_cstring bytes)
  | push_bytes (s : UnixString) (bytes : List Nat) (s' : UnixString)
      (hs : Reachable s)
      (h : UnixString.push_bytes s bytes = (Except.ok (), s')) : Reachable s'

/-! ### Characterisation of `memchr` -/

theorem memchr_eq_none_iff (n : Nat) (l : List Nat) :
    memchr n l = none ↔ ∀ b ∈ l, b ≠ n := by
  induction l with
  | nil => simp [memchr]
  | cons b bs ih =>
    by_cases hb : b = n
    · subst hb
      simp [memchr]
    · simp [memchr, hb, Option.map_eq_none', ih]

theorem memchr_eq_some (n : Nat) (l : List Nat) (p : Nat)
    (h : memchr n l = some p) :
    l[p]? = some n ∧ ∀ i, i < p → l[i]? ≠ some n := by
  induction l generalizing p with
  | nil => simp [memchr] at h
  | cons b bs ih =>
    by_cases hb : b = n
    · subst hb
      simp [memchr] at h
      subst h
      simp
    · simp [memchr, hb, Option.map_eq_some'] at h
      obtain ⟨q, hq, hp⟩ := h
      obtain ⟨h1, h2⟩ := ih q hq
      subst hp
      refine ⟨by simpa using h1, ?_⟩
      intro i hi
      match i with
      | 0 => simpa using hb
      | j + 1 =>
        have : j < q := by omega
        simpa using h2 j this

theorem memchr_le_of_mem (n : Nat) (l : List Nat) (p i : Nat)
    (h : memchr n l = some p) (hi : l[i]? = some n) : p ≤ i := by
  by_contra hlt
  exact (memchr_eq_some n l p h).2 i (by omega) hi

theorem memchr_append_nul (m : List Nat) (h : ∀ b ∈ m, b ≠ 0) :
    memchr 0 (m ++ [0]) = some m.length := by
  induction m with
  | nil => simp [memchr]
  | cons b bs ih =>
    have hb : b ≠ 0 := h b (List.mem_cons_self b bs)
    have hbs : ∀ x ∈ bs, x ≠ 0 := fun x hx => h x (List.mem_cons_of_mem b hx)
    simp [memchr, hb, ih hbs]

theorem memchr_isSome_of_mem (n : Nat) (l : List Nat) (h : n ∈ l) :
    memchr n l ≠ none := by
  intro hnone
  exact ((memchr_eq_none_iff n l).mp hnone) n h rfl

/-! ### The invariant and its characterisations -/

theorem noNul_dropLast (l : List Nat)
    (hinterior : ∀ i, i + 1 < l.length → l[i]? ≠ some 0) :
    NoNul l.dropLast := by
  intro b hb
  obtain ⟨i, hi, hgetb⟩ := List.mem_iff_getElem.mp hb
  have hlen : i < l.length - 1 := by
    have := l.length_dropLast
    omega
  have hget : l[i]? = some b := by
    have h1 : l.dropLast[i]? = some b := by
      rw [List.getElem?_eq_getElem hi]
      simp [hgetb]
    rwa [List.getElem?_dropLast, if_pos hlen] at h1
  intro hb0
  subst hb0
  exact hinterior i (by omega) hget

theorem eq_dropLast_append_of_getLast (l : List Nat) (h : l.getLast? = some 0) :
    l = l.dropLast ++ [0] :=
  (List.dropLast_append_getLast? 0 h).symm

theorem memchr_last_decomp (l : List Nat) (p : Nat)
    (h : find_nul_byte l = some p) (hp : p + 1 = l.length) :
    NoNul l.dropLast ∧ l = l.dropLast ++ [0] := by
  obtain ⟨hget, hmin⟩ := memchr_eq_some 0 l p h
  have hlast : l.getLast? = some 0 := by
    rw [List.getLast?_eq_getElem?]
    have : l.length - 1 = p := by omega
    rw [this]
    exact hget
  refine ⟨noNul_dropLast l ?_, eq_dropLast_append_of_getLast l hlast⟩
  intro i hi
  exact hmin i (by omega)

theorem nulOnlyAtEnd_iff_exists (l : List Nat) :
    NulOnlyAtEnd l ↔ ∃ m, NoNul m ∧ l = m ++ [0] := by
  constructor
  · rintro ⟨h1, h2, h3⟩
    exact ⟨l.dropLast, noNul_dropLast l h3, eq_dropLast_append_of_getLast l h2⟩
  · rintro ⟨m, hm, rfl⟩
    refine ⟨by simp, by simp, ?_⟩
    intro i hi
    have hilen : i < m.length := by
      have h2 : (m ++ [0]).length = m.length + 1 := by simp
      omega
    rw [List.getElem?_append_left hilen]
    intro h0
    exact hm 0 (List.mem_iff_getElem?.mpr ⟨i, h0⟩) rfl

theorem validate_eq_ok_iff_exists (s : UnixString) :
    s.validate = Except.ok () ↔ ∃ m, NoNul m ∧ s.inner = m ++ [0] := by
  constructor
  · intro h
    unfold UnixString.validate at h
    rcases hf : find_nul_byte s.inner with _ | p
    · rw [hf] at h
      simp at h
    · rw [hf] at h
      by_cases hp : p + 1 = s.inner.length
      · obtain ⟨hnn, hdec⟩ := memchr_last_decomp s.inner p hf hp
        exact ⟨s.inner.dropLast, hnn, hdec⟩
      · simp [hp] at h
  · rintro ⟨m, hm, he⟩
    unfold UnixString.validate
    rw [he]
    rw [show find_nul_byte (m ++ [0]) = some m.length from memchr_append_nul m hm]
    simp

theorem validate_eq_ok_iff (s : UnixString) :
    s.validate = Except.ok () ↔ NulOnlyAtEnd s.inner :=
  (validate_eq_ok_iff_exists s).trans (nulOnlyAtEnd_iff_exists s.inner).symm

theorem from_bytes_ok_exists (bytes : List Nat) (s : UnixString)
    (h : UnixString.from_bytes bytes = Except.ok s) :
    ∃ m, NoNul m ∧ s.inner = m ++ [0] := by
  unfold UnixString.from_bytes at h
  rcases hf : find_nul_byte bytes with _ | p <;> rw [hf] at h
  · simp only [Except.ok.injEq] at h
    subst h
    exact ⟨bytes, (memchr_eq_none_iff 0 bytes).mp hf, rfl⟩
  · dsimp only at h
    by_cases hp : p + 1 = bytes.length
    · rw [if_pos hp] at h
      simp only [Except.ok.injEq] at h
      subst h
      obtain ⟨hnn, hdec⟩ := memchr_last_decomp bytes p hf hp
      exact ⟨bytes.dropLast, hnn, hdec⟩
    · rw [if_neg hp] at h
      simp at h

theorem push_bytes_ok_exists (s : UnixString) (bytes : List Nat) (s' : UnixString)
    (hs : ∃ m, NoNul m ∧ s.inner = m ++ [0])
    (h : s.push_bytes bytes = (Except.ok (), s')) :
    ∃ m, NoNul m ∧ s'.inner = m ++ [0] := by
  obtain ⟨m, hm, hsi⟩ := hs
  have hdl : s.inner.dropLast = m := by
    rw [hsi]
    exact List.dropLast_concat
  unfold UnixString.push_bytes at h
  rcases hf : find_nul_byte bytes with _ | p <;> rw [hf] at h
  · simp only [Prod.mk.injEq] at h
    obtain ⟨-, h2⟩ := h
    refine ⟨m ++ bytes, ?_, ?_⟩
    · intro b hb
      rcases List.mem_append.mp hb with hbm | hbb
      · exact hm b hbm
      · exact (memchr_eq_none_iff 0 bytes).mp hf b hbb
    · rw [← h2]
      show (s.extend_slice bytes).inner ++ [0] = m ++ bytes ++ [0]
      simp [UnixString.extend_slice, hdl]
  · dsimp only at h
    by_cases hp : p + 1 = bytes.length
    · rw [if_pos hp] at h
      simp only [Prod.mk.injEq] at h
      obtain ⟨-, h2⟩ := h
      obtain ⟨hnn, hdec⟩ := memchr_last_decomp bytes p hf hp
      refine ⟨m ++ bytes.dropLast, ?_, ?_⟩
      · intro b hb
        rcases List.mem_append.mp hb with hbm | hbb
        · exact hm b hbm
        · exact hnn b hbb
      · rw [← h2]
        show s.inner.dropLast ++ bytes = m ++ bytes.dropLast ++ [0]
        rw [hdl, List.append_assoc, ← hdec]
    · rw [if_neg hp] at h
      simp at h

theorem reachable_exists (s : UnixString) (h : Reachable s) :
    ∃ m, NoNul m ∧ s.inner = m ++ [0] := by
  induction h with
  | new => exact ⟨[], by simp [NoNul], rfl⟩
  | with_capacity n => exact ⟨[], by simp [NoNul], rfl⟩
  | from_bytes bytes s h => exact from_bytes_ok_exists bytes s h
  | try_from_string bytes s h => exact from_bytes_ok_exists bytes s h
  | try_from_os_string bytes s h => exact from_bytes_ok_exists bytes s h
  | try_from_pathbuf bytes s h => exact from_bytes_ok_exists bytes s h
  | try_from_vec bytes s h => exact from_bytes_ok_exists bytes s h
  | from_cstring bytes h => exact (nulOnlyAtEnd_iff_exists bytes).mp h
  | push_bytes s bytes s' hs h ih => exact push_bytes_ok_exists s bytes s' ih h

/-- C1: every `UnixString` produced by a sequence of successful safe
operations — `new`, `with_capacity`, `from_bytes`, the `TryFrom`
conversions from `String`/`OsString`/`PathBuf`/`Vec<u8>`, `From<CString>`,
and successful `push`/`push_bytes` calls — passes `validate`, and
equivalently its inner buffer is non-empty, ends in a `0x00` byte, and has
no `0x00` byte at any earlier index (invariants I1–I3). -/
theorem c1_safe_ops_preserve_invariants (s : UnixString) (hs : Reachable s) :
    s.validate = Except.ok () ∧
      (s.inner ≠ [] ∧ s.inner.getLast? = some 0 ∧
        ∀ i, i + 1 < s.inner.length → s.inner[i]? ≠ some 0) := by
  have hex := reachable_exists s hs
  have hval : NulOnlyAtEnd s.inner := (nulOnlyAtEnd_iff_exists s.inner).mpr hex
  exact ⟨(validate_eq_ok_iff s).mpr hval, hval⟩

/-- Witness for C1 at the concrete reachable buffer `new()`. -/
theorem c1_safe_ops_preserve_invariants_witness :
    UnixString.validate UnixString.new = Except.ok () ∧
      (UnixString.new.inner ≠ [] ∧ UnixString.new.inner.getLast? = some 0 ∧
        ∀ i, i + 1 < UnixString.new.inner.length → UnixString.new.inner[i]? ≠ some 0) :=
  c1_safe_ops_preserve_invariants UnixString.new Reachable.new

/-- C2: for every `UnixString` B satisfying I1–I3 and every byte sequence S
with a nul byte at a position other than its last index, `push_bytes B S`
fails with the interior-nul error and leaves B's physical byte view
bit-identical: the scan of S happens before any mutation of `inner`. -/
theorem c2_push_bytes_atomic_on_interior_nul (B : UnixString) (S : List Nat)
    (hB : NulOnlyAtEnd B.inner) (i : Nat) (hi : i + 1 < S.length)
    (h0 : S[i]? = some 0) :
    B.push_bytes S = (Except.error Error.interiorNulByte, B) := by
  have hmem : (0 : Nat) ∈ S := List.mem_iff_getElem?.mpr ⟨i, h0⟩
  rcases hf : find_nul_byte S with _ | p
  · exact absurd hf (memchr_isSome_of_mem 0 S hmem)
  · have hple : p ≤ i := memchr_le_of_mem 0 S p i hf h0
    have hp : ¬p + 1 = S.length := by omega
    unfold UnixString.push_bytes
    rw [hf]
    dsimp only
    rw [if_neg hp]

/-- Witness for C2 at the valid buffer `[0x61, 0x00]` and the byte sequence
`[0x00, 0x62]`, whose nul is at index 0 of 2. -/
theorem c2_push_bytes_atomic_on_interior_nul_witness :
    UnixString.push_bytes ⟨[97, 0]⟩ [0, 98] =
      (Except.error Error.interiorNulByte, (⟨[97, 0]⟩ : UnixString)) :=
  c2_push_bytes_atomic_on_interior_nul ⟨[97, 0]⟩ [0, 98] (by decide) 0 (by decide)
    (by decide)

/-- C3 (code bug): `validate` re-scans the buffer and, for every possible
content, succeeds exactly when the only nul byte sits at the final index,
reports the interior-nul error exactly when a nul occurs before the last
index, and reports the missing-terminator error exactly when no nul byte is
present (including the degenerate empty buffer).  However, the
`MissingNulTerminator` variant that src/unix_string.rs returns is absent
from the variants declared by `enum Error` in src/error.rs, so the crate's
error taxonomy as shipped does not contain it (and the crate does not
compile). -/
theorem c3_validate_trichotomy_and_taxonomy_gap :
    (∀ l : List Nat, UnixString.validate ⟨l⟩ = Except.ok () ↔ NulOnlyAtEnd l) ∧
    (∀ l : List Nat, UnixString.validate ⟨l⟩ = Except.error Error.interiorNulByte ↔
      ∃ i, i + 1 < l.length ∧ l[i]? = some 0) ∧
    (∀ l : List Nat, UnixString.validate ⟨l⟩ = Except.error Error.missingNulTerminator ↔
      NoNul l) ∧
    UnixString.validate ⟨[]⟩ = Except.error Error.missingNulTerminator ∧
    "MissingNulTerminator" ∈ validateReferencedVariants ∧
    "MissingNulTerminator" ∉ errorRsDeclaredVariants := by
  refine ⟨?_, ?_, ?_, rfl, by decide, by decide⟩
  · intro l
    exact validate_eq_ok_iff ⟨l⟩
  · intro l
    constructor
    · intro h
      unfold UnixString.validate at h
      rcases hf : find_nul_byte l with _ | p <;> rw [hf] at h
      · simp at h
      · dsimp only at h
        by_cases hp : p + 1 = l.length
        · rw [if_pos hp] at h
          simp at h
        · obtain ⟨hget, -⟩ := memchr_eq_some 0 l p hf
          obtain ⟨hplen, -⟩ := List.getElem?_eq_some_iff.mp hget
          exact ⟨p, by omega, hget⟩
    · rintro ⟨i, hi, h0⟩
      have hmem : (0 : Nat) ∈ l := List.mem_iff_getElem?.mpr ⟨i, h0⟩
      rcases hf : find_nul_byte l with _ | p
      · exact absurd hf (memchr_isSome_of_mem 0 l hmem)
      · have hple : p ≤ i := memchr_le_of_mem 0 l p i hf h0
        have hp : ¬p + 1 = l.length := by omega
        unfold UnixString.validate
        rw [hf]
        dsimp only
        rw [if_neg hp]
  · intro l
    constructor
    · intro h
      unfold UnixString.validate at h
      rcases hf : find_nul_byte l with _ | p <;> rw [hf] at h
      · exact (memchr_eq_none_iff 0 l).mp hf
      · dsimp only at h
        by_cases hp : p + 1 = l.length
        · rw [if_pos hp] at h
          simp at h
        · rw [if_neg hp] at h
          simp at h
    · intro h
      unfold UnixString.validate
      rw [show find_nul_byte l = none from (memchr_eq_none_iff 0 l).mpr h]

/-- C4: `from_bytes` is a three-way case split: data with no nul byte
succeeds with one terminator appended; data whose only nul is at its last
index succeeds unchanged; data with a nul at any earlier index fails with
the interior-nul error. -/
theorem c4_from_bytes_three_way :
    (∀ data : List Nat, NoNul data →
      UnixString.from_bytes data = Except.ok ⟨data ++ [0]⟩) ∧
    (∀ data : List Nat, NulOnlyAtEnd data →
      UnixString.from_bytes data = Except.ok ⟨data⟩) ∧
    (∀ data : List Nat, ∀ i, i + 1 < data.length → data[i]? = some 0 →
      UnixString.from_bytes data = Except.error Error.interiorNulByte) := by
  refine ⟨?_, ?_, ?_⟩
  · intro data h
    unfold UnixString.from_bytes
    rw [show find_nul_byte data = none from (memchr_eq_none_iff 0 data).mpr h]
  · intro data h
    obtain ⟨m, hm, rfl⟩ := (nulOnlyAtEnd_iff_exists data).mp h
    unfold UnixString.from_bytes
    rw [show find_nul_byte (m ++ [0]) = some m.length from memchr_append_nul m hm]
    dsimp only
    rw [if_pos (by simp)]
  · intro data i hi h0
    have hmem : (0 : Nat) ∈ data := List.mem_iff_getElem?.mpr ⟨i, h0⟩
    rcases hf : find_nul_byte data with _ | p
    · exact absurd hf (memchr_isSome_of_mem 0 data hmem)
    · have hple : p ≤ i := memchr_le_of_mem 0 data p i hf h0
      have hp : ¬p + 1 = data.length := by omega
      unfold UnixString.from_bytes
      rw [hf]
      dsimp only
      rw [if_neg hp]

/-- Witness for C4 at the claim's concrete inputs: `[b'a', 0, b'b', b'c']`
fails with the interior-nul error, while `[b'a', b'b', b'c', 0]` and
`[b'a', b'b', b'c']` both succeed with the logical view `"abc"`. -/
theorem c4_from_bytes_three_way_witness :
    UnixString.from_bytes [97, 0, 98, 99] = Except.error Error.interiorNulByte ∧
    UnixString.from_bytes [97, 98, 99, 0] = Except.ok ⟨[97, 98, 99, 0]⟩ ∧
    UnixString.from_bytes [97, 98, 99] = Except.ok ⟨[97, 98, 99, 0]⟩ ∧
    UnixString.as_bytes ⟨[97, 98, 99, 0]⟩ = [97, 98, 99] := by
  refine ⟨c4_from_bytes_three_way.2.2 [97, 0, 98, 99] 1 (by decide) (by decide),
    c4_from_bytes_three_way.2.1 [97, 98, 99, 0] (by decide), ?_, by decide⟩
  have h := c4_from_bytes_three_way.1 [97, 98, 99] (by decide)
  simpa using h

/-- C5: for every byte sequence S with no nul byte, `from_bytes S`
succeeds, the logical byte view of the result is exactly S, and the
physical byte view is S followed by exactly one `0x00` byte. -/
theorem c5_round_trip (S : List Nat) (h : NoNul S) :
    ∃ u : UnixString, UnixString.from_bytes S = Except.ok u ∧
      u.as_bytes = S ∧ u.as_bytes_with_nul = S ++ [0] := by
  refine ⟨⟨S ++ [0]⟩, ?_, ?_, rfl⟩
  · unfold UnixString.from_bytes
    rw [show find_nul_byte S = none from (memchr_eq_none_iff 0 S).mpr h]
  · show (S ++ [0]).dropLast = S
    exact List.dropLast_concat

/-- Witness for C5 at the nul-free byte sequence `[104, 105]`. -/
theorem c5_round_trip_witness :
    ∃ u : UnixString, UnixString.from_bytes [104, 105] = Except.ok u ∧
      u.as_bytes = [104, 105] ∧ u.as_bytes_with_nul = [104, 105] ++ [0] :=
  c5_round_trip [104, 105] (by decide)

/-- C8: for every byte sequence S with no nul byte, `from_bytes S` and
`from_bytes (S ++ [0])` both succeed and produce buffers with identical
logical and identical physical byte views. -/
theorem c8_idempotent_retermination (S : List Nat) (h : NoNul S) :
    ∃ u v : UnixString, UnixString.from_bytes S = Except.ok u ∧
      UnixString.from_bytes (S ++ [0]) = Except.ok v ∧
      u.as_bytes = v.as_bytes ∧ u.as_bytes_with_nul = v.as_bytes_with_nul := by
  refine ⟨⟨S ++ [0]⟩, ⟨S ++ [0]⟩, ?_, ?_, rfl, rfl⟩
  · unfold UnixString.from_bytes
    rw [show find_nul_byte S = none from (memchr_eq_none_iff 0 S).mpr h]
  · unfold UnixString.from_bytes
    rw [show find_nul_byte (S ++ [0]) = some S.length from memchr_append_nul S h]
    dsimp only
    rw [if_pos (by simp)]

/-- Witness for C8 at the nul-free byte sequence `[104]`. -/
theorem c8_idempotent_retermination_witness :
    ∃ u v : UnixString, UnixString.from_bytes [104] = Except.ok u ∧
      UnixString.from_bytes ([104] ++ [0]) = Except.ok v ∧
      u.as_bytes = v.as_bytes ∧ u.as_bytes_with_nul = v.as_bytes_with_nul :=
  c8_idempotent_retermination [104] (by decide)

/-- C7: `starts_with p` returns true exactly when the bytes of `p` are a
leading segment of the buffer's logical byte view; in particular, for a
buffer whose logical content is "lorem ipsum", it is true on "lorem" and
"lorem ipsum" and false on "lorem ipsum " and "lorem ipsun", and
`starts_with ""` is true for every buffer. -/
theorem c7_starts_with_iff :
    (∀ (s : UnixString) (p : List Nat),
      s.starts_with p = true ↔ ∃ t, s.as_bytes = p ++ t) ∧
    (∀ s : UnixString, s.starts_with [] = true) ∧
    UnixString.starts_with ⟨[108, 111, 114, 101, 109, 32, 105, 112, 115, 117, 109, 0]⟩
      [108, 111, 114, 101, 109] = true ∧
    UnixString.starts_with ⟨[108, 111, 114, 101, 109, 32, 105, 112, 115, 117, 109, 0]⟩
      [108, 111, 114, 101, 109, 32, 105, 112, 115, 117, 109] = true ∧
    UnixString.starts_with ⟨[108, 111, 114, 101, 109, 32, 105, 112, 115, 117, 109, 0]⟩
      [108, 111, 114, 101, 109, 32, 105, 112, 115, 117, 109, 32] = false ∧
    UnixString.starts_with ⟨[108, 111, 114, 101, 109, 32, 105, 112, 115, 117, 109, 0]⟩
      [108, 111, 114, 101, 109, 32, 105, 112, 115, 117, 110] = false := by
  refine ⟨?_, ?_, by decide, by decide, by decide, by decide⟩
  · intro s p
    unfold UnixString.starts_with UnixString.sliceGetTo
    by_cases hle : p.length ≤ s.as_bytes.length
    · rw [if_pos hle]
      dsimp only
      rw [beq_iff_eq]
      constructor
      · intro heq
        refine ⟨s.as_bytes.drop p.length, ?_⟩
        conv_lhs => rw [← List.take_append_drop p.length s.as_bytes]
        rw [heq]
      · rintro ⟨t, ht⟩
        rw [ht]
        exact List.take_left p t
    · rw [if_neg hle]
      dsimp only
      constructor
      · intro h
        simp at h
      · rintro ⟨t, ht⟩
        refine absurd ?_ hle
        rw [ht]
        simp
  · intro s
    simp [UnixString.starts_with, UnixString.sliceGetTo]

/-- C9: for every `UnixString` whose inner buffer contains exactly one nul
byte, located at its final index (the precondition established by I1–I3),
the foreign-string view `as_c_str` never fails: the `unwrap` of
`CStr::from_bytes_with_nul` receives a success value. -/
theorem c9_as_c_str_never_fails (s : UnixString) (h : NulOnlyAtEnd s.inner) :
    s.as_c_str = some s.inner := by
  obtain ⟨m, hm, he⟩ := (nulOnlyAtEnd_iff_exists s.inner).mp h
  unfold UnixString.as_c_str cstrFromBytesWithNul
  rw [he]
  rw [show find_nul_byte (m ++ [0]) = some m.length from memchr_append_nul m hm]
  dsimp only
  rw [if_pos (by simp)]

/-- Witness for C9 at the valid buffer `[0x68, 0x00]`. -/
theorem c9_as_c_str_never_fails_witness :
    UnixString.as_c_str ⟨[104, 0]⟩ = some [104, 0] :=
  c9_as_c_str_never_fails ⟨[104, 0]⟩ (by decide)

/-- C10: `len` computes the logical length as the physical length minus one
by wrapping subtraction modulo `2 ^ 64`, so it is total: under invariant I1
(non-empty inner buffer, whose length as a Rust `usize` is below `2 ^ 64`),
`len + 1 = len_with_nul`; on the degenerate zero-length buffer `len` wraps
to `2 ^ 64 - 1` (`usize::MAX`) instead of panicking. -/
theorem c10_len_wrapping (s : UnixString) :
    (s.inner ≠ [] → s.inner.length < 2 ^ 64 → s.len + 1 = s.len_with_nul) ∧
    (s.inner = [] → s.len = 2 ^ 64 - 1) := by
  constructor
  · intro hne hlt
    unfold UnixString.len UnixString.len_with_nul
    have h1 : 0 < s.inner.length := List.length_pos.mpr hne
    omega
  · intro he
    unfold UnixString.len
    rw [he]
    simp

/-- Witness for C10 at the buffers `[0]` (minimal valid) and `[]`
(degenerate). -/
theorem c10_len_wrapping_witness :
    (UnixString.len ⟨[0]⟩ + 1 = UnixString.len_with_nul ⟨[0]⟩) ∧
    UnixString.len ⟨[]⟩ = 2 ^ 64 - 1 :=
  ⟨(c10_len_wrapping ⟨[0]⟩).1 (by decide) (by norm_num),
   (c10_len_wrapping ⟨[]⟩).2 rfl⟩

theorem listCompare_append_nul (m₁ m₂ : List Nat) (h₁ : NoNul m₁) (h₂ : NoNul m₂) :
    listCompare (m₁ ++ [0]) (m₂ ++ [0]) = listCompare m₁ m₂ := by
  induction m₁ generalizing m₂ with
  | nil =>
    cases m₂ with
    | nil => rfl
    | cons b bs =>
      have hb : 0 < b := Nat.pos_of_ne_zero (h₂ b (List.mem_cons_self b bs))
      show listCompare (0 :: []) (b :: (bs ++ [0])) = listCompare [] (b :: bs)
      simp [listCompare, hb]
  | cons a as ih =>
    cases m₂ with
    | nil =>
      have ha : 0 < a := Nat.pos_of_ne_zero (h₁ a (List.mem_cons_self a as))
      show listCompare (a :: (as ++ [0])) (0 :: []) = listCompare (a :: as) []
      simp [listCompare, ha, Nat.not_lt_zero]
    | cons b bs =>
      have h₁' : NoNul as := fun x hx => h₁ x (List.mem_cons_of_mem a hx)
      have h₂' : NoNul bs := fun x hx => h₂ x (List.mem_cons_of_mem b hx)
      show listCompare (a :: (as ++ [0])) (b :: (bs ++ [0])) =
        listCompare (a :: as) (b :: bs)
      by_cases hab : a < b
      · simp [listCompare, hab]
      · by_cases hba : b < a
        · simp [listCompare, hab, hba]
        · simp [listCompare, hab, hba, ih bs h₁' h₂']

/-- Counterexample to C6 as stated: the valid buffer with logical content
"a/b/" compares equal to the path "a/b" under the crate's
`PartialEq<&Path>` even though the logical byte contents differ, because
`Path` equality compares component sequences rather than bytes. -/
theorem c6_counterexample_path_eq_not_bytewise :
    UnixString.eq_path ⟨[97, 47, 98, 47, 0]⟩ [97, 47, 98] = true ∧
    UnixString.as_bytes ⟨[97, 47, 98, 47, 0]⟩ ≠ [97, 47, 98] ∧
    NulOnlyAtEnd (⟨[97, 47, 98, 47, 0]⟩ : UnixString).inner := by
  refine ⟨by decide, by decide, by decide⟩

/-- C6 amended: for any two valid buffers, the derived intrinsic equality
and ordering over `inner` agree with byte-wise equality and lexicographic
comparison of the logical (terminator-excluded) contents — in particular
two valid buffers are equal iff their logical byte views are equal, so the
derived hash (a function of `inner`) also depends only on the logical
content — and the equality comparisons against `&str`, `&OsStr` and
`&CStr` views compare by logical byte content; the comparison against
`&Path` views instead compares by path components, which can equate
byte-distinct logical contents. -/
theorem c6_value_semantics_amended :
    (∀ x y : UnixString, NulOnlyAtEnd x.inner → NulOnlyAtEnd y.inner →
      ((x.inner = y.inner ↔ x.as_bytes = y.as_bytes) ∧
        listCompare x.inner y.inner = listCompare x.as_bytes y.as_bytes)) ∧
    (∀ (x : UnixString) (b : List Nat), x.eq_str b = true ↔ x.as_bytes = b) ∧
    (∀ (x : UnixString) (b : List Nat), x.eq_os_str b = true ↔ x.as_bytes = b) ∧
    (∀ (x : UnixString) (b : List Nat), x.eq_c_str b = true ↔ x.as_bytes = b) ∧
    (UnixString.eq_path ⟨[97, 47, 98, 47, 0]⟩ [97, 47, 98] = true ∧
      UnixString.as_bytes ⟨[97, 47, 98, 47, 0]⟩ ≠ [97, 47, 98]) := by
  refine ⟨?_, ?_, ?_, ?_, by decide, by decide⟩
  · intro x y hx hy
    obtain ⟨m₁, hm₁, he₁⟩ := (nulOnlyAtEnd_iff_exists x.inner).mp hx
    obtain ⟨m₂, hm₂, he₂⟩ := (nulOnlyAtEnd_iff_exists y.inner).mp hy
    have hax : x.as_bytes = m₁ := by
      show x.inner.dropLast = m₁
      rw [he₁]
      exact List.dropLast_concat
    have hay : y.as_bytes = m₂ := by
      show y.inner.dropLast = m₂
      rw [he₂]
      exact List.dropLast_concat
    constructor
    · rw [he₁, he₂, hax, hay]
      simp
    · rw [he₁, he₂, hax, hay]
      exact listCompare_append_nul m₁ m₂ hm₁ hm₂
  · intro x b
    simp [UnixString.eq_str]
  · intro x b
    simp [UnixString.eq_os_str]
  · intro x b
    simp [UnixString.eq_c_str, UnixString.as_bytes, UnixString.inner_without_nul_terminator]

/-- Witness for the amended C6 at the valid buffers `[0x68, 0x00]` and
`[0x69, 0x00]`. -/
theorem c6_value_semantics_amended_witness :
    ((⟨[104, 0]⟩ : UnixString).inner = (⟨[105, 0]⟩ : UnixString).inner ↔
      UnixString.as_bytes ⟨[104, 0]⟩ = UnixString.as_bytes ⟨[105, 0]⟩) ∧
    listCompare (⟨[104, 0]⟩ : UnixString).inner (⟨[105, 0]⟩ : UnixString).inner =
      listCompare (UnixString.as_bytes ⟨[104, 0]⟩) (UnixString.as_bytes ⟨[105, 0]⟩) :=
  c6_value_semantics_amended.1 ⟨[104, 0]⟩ ⟨[105, 0]⟩ (by decide) (by decide)
